import Mathlib

/-!
Verification of the CTCP printable-ASCII obfuscation codec from
`aggligator-util/src/ctcp.rs`.  Bytes are modelled as `Nat` values below 256,
32-bit machine arithmetic as `Nat` with explicit `% 2^32`, byte buffers as
`List Nat`, and fallible operations return `Except CtcpError`.  The mutable
`short_only` flag of each direction is threaded explicitly: stateful functions
return the pair of their result and the flag value after the call.
-/

namespace Ctcp

/-- Error model for `std::io::Error`: only the kind and message matter here. -/
inductive CtcpError where
  | invalidData (msg : String)
  | unexpectedEof (msg : String)
deriving DecidableEq, Repr

/-- `HEADER_MSS_MOD = (94 * 94 * 94) - 1` from the source. -/
def HEADER_MSS_MOD : Nat := 94 * 94 * 94 - 1

/-- `DEFAULT_KEY` from the source. -/
def DEFAULT_KEY : Nat := 154543927

/-- `fast_mod_u32`: `((value as u64 * modulus as u64) >> 32) as u32`, with both
operands truncated to `u32` as in the source signature. -/
def fast_mod_u32 (value modulus : Nat) : Nat :=
  (value % 4294967296) * (modulus % 4294967296) / 4294967296

/-- `random_range(rng, min, max)`: the rng draw `v` (a `u32`) is reduced by
`fast_mod_u32` to `[0, max - min)` and added to `min` with wrapping `u8`
arithmetic (`value as u8` and `wrapping_add`). -/
def random_range (v mn mx : Nat) : Nat :=
  (mn + (fast_mod_u32 v ((mx - mn) % 256)) % 256) % 256

/-- `mask_key`: `(key & 0xff) as u8`, i.e. the low byte of the key. -/
def mask_key (key : Nat) : Nat := key % 256

/-- `mask_bytes`: XOR every byte with `key`; no-op when `key == 0`.  The
word-at-a-time chunking of the source is byte-wise XOR semantically. -/
def mask_bytes (data : List Nat) (key : Nat) : List Nat :=
  if key = 0 then data else data.map (fun b => b ^^^ key)

/-- Swap the entries at positions `i` and `j`, as `ptr::swap` on a slice does;
out-of-range indices never occur in the source loops. -/
def swapIdx (l : List Nat) (i j : Nat) : List Nat :=
  match l[i]?, l[j]? with
  | some a, some b => (l.set i b).set j a
  | _, _ => l

/-- The swap sequence of `shuffle_bytes`: for each `i` in ascending order the
partner index is `fast_mod_u32((i as u32) ^ key, len as u32)`. -/
def shuffleSwaps (len key : Nat) : List (Nat × Nat) :=
  (List.range len).map (fun i => (i, fast_mod_u32 (i ^^^ key) len))

/-- Apply a list of swaps left to right. -/
def applySwaps (l : List Nat) (sw : List (Nat × Nat)) : List Nat :=
  sw.foldl (fun acc p => swapIdx acc p.1 p.2) l

/-- `shuffle_bytes`: ascending-order swaps; length 0 or 1 is a no-op. -/
def shuffle_bytes (data : List Nat) (key : Nat) : List Nat :=
  if data.length ≤ 1 then data else applySwaps data (shuffleSwaps data.length key)

/-- `unshuffle_bytes`: the same swaps in descending order. -/
def unshuffle_bytes (data : List Nat) (key : Nat) : List Nat :=
  if data.length ≤ 1 then data else applySwaps data (shuffleSwaps data.length key).reverse

/-- `u8::wrapping_sub`. -/
def wsub (a b : Nat) : Nat := (a % 256 + 256 - b % 256) % 256

/-- `u8::wrapping_add`. -/
def wadd (a b : Nat) : Nat := (a + b) % 256

/-- Tail of `delta_encode_in_place`: each byte becomes its wrapping difference
from the original previous byte. -/
def deltaEncAux (prev : Nat) : List Nat → List Nat
  | [] => []
  | c :: rest => wsub c prev :: deltaEncAux c rest

/-- `delta_encode_in_place`: first byte biased by the key, the rest deltas. -/
def delta_encode_in_place (data : List Nat) (key : Nat) : List Nat :=
  match data with
  | [] => []
  | d0 :: rest => wsub d0 key :: deltaEncAux d0 rest

/-- Tail of `delta_decode_in_place`: running wrapping sums. -/
def deltaDecAux (c : Nat) : List Nat → List Nat
  | [] => []
  | b :: rest => wadd c b :: deltaDecAux (wadd c b) rest

/-- `delta_decode_in_place`. -/
def delta_decode_in_place (data : List Nat) (key : Nat) : List Nat :=
  match data with
  | [] => []
  | d0 :: rest => wadd d0 key :: deltaDecAux (wadd d0 key) rest

/-- One byte of `base94_encode_into`: writing `adjusted` for
`byte.wrapping_sub(key)`, one output byte when `adjusted` is below 93,
otherwise a high/low escape pair. -/
def base94_encode_byte (key b : Nat) : List Nat :=
  if 93 ≤ wsub b key then
    [0x20 + ((wsub b key / 93) - 1) + 93, 0x20 + wsub b key % 93]
  else
    [0x20 + wsub b key]

/-- `base94_encode_into`. -/
def base94_encode_into (data : List Nat) (key : Nat) : List Nat :=
  data.flatMap (base94_encode_byte key)

/-- `base94_decode_into`: the source validates in a first pass and writes in a
second; one recursive pass with the same checks and output is equivalent.
Writing `v` for `r - 0x20` and `v2` for `r2 - 0x20`, an escape pair decodes
to `combined = (v - 93 + 1) * 93 + v2`. -/
def base94_decode_into (key : Nat) : List Nat → Except CtcpError (List Nat)
  | [] => .ok []
  | r :: rest =>
    if r < 0x20 ∨ 0x7e < r then .error (.invalidData "non-printable CTCP symbol")
    else
      if 93 ≤ r - 0x20 then
        match rest with
        | [] => .error (.unexpectedEof "CTCP high digit missing")
        | r2 :: rest2 =>
          if r2 < 0x20 ∨ 0x7e < r2 then .error (.invalidData "non-printable CTCP symbol")
          else
            if 93 ≤ r2 - 0x20 then .error (.invalidData "CTCP low digit overflow")
            else
              if 255 < (r - 0x20 - 93 + 1) * 93 + (r2 - 0x20) then
                .error (.invalidData "CTCP combined byte out of range")
              else
                match base94_decode_into key rest2 with
                | .ok tail => .ok (wadd ((r - 0x20 - 93 + 1) * 93 + (r2 - 0x20)) key :: tail)
                | .error e => .error e
      else
        match base94_decode_into key rest with
        | .ok tail => .ok (wadd (r - 0x20) key :: tail)
        | .error e => .error e

/-- Little-endian base-94 digit values of `value`, with explicit fuel so the
recursion is structural (the source loop runs `value > 0`, dividing by 94). -/
def base94DigitsGo (fuel v : Nat) : List Nat :=
  match fuel with
  | 0 => []
  | fuel + 1 => if v = 0 then [] else v % 94 :: base94DigitsGo fuel (v / 94)

/-- `base94_decimal_encode`: the big-endian digit bytes (each `+ 0x20`), a lone
`0x20` for value zero.  The returned list length is the source's `len`. -/
def base94_decimal_encode (value : Nat) : List Nat :=
  if value = 0 then [0x20]
  else ((base94DigitsGo value value).reverse).map (fun d => d + 0x20)

/-- Accumulator loop of `base94_decimal_decode`. -/
def base94DecimalGo (acc : Nat) : List Nat → Except CtcpError Nat
  | [] => .ok acc
  | b :: rest =>
    if b < 0x20 ∨ 0x7e < b then .error (.invalidData "non-printable CTCP symbol")
    else base94DecimalGo (acc * 94 + (b - 0x20)) rest

/-- `base94_decimal_decode`. -/
def base94_decimal_decode (data : List Nat) : Except CtcpError Nat :=
  if data.isEmpty ∨ 3 < data.length then .error (.invalidData "CTCP length field illegal")
  else base94DecimalGo 0 data

/-- `base94_decode_kf`: undo the `k`/`f` flag coding on a (≥ 4 byte) prefix. -/
def base94_decode_kf (header : List Nat) : List Nat :=
  if 4 ≤ header.length then
    let h1 := if (header.getD 0 0) % 2 = 0 then header.set 1 0x20 else header
    swapIdx (h1.set 0 0x20) 2 3
  else header

/-- Big-endian 16-bit word sum of `ip_standard_checksum` (odd trailing byte as
the high byte of its word). -/
def sum16 : List Nat → Nat
  | a :: b :: rest => a * 256 + b + sum16 rest
  | [a] => a * 256
  | [] => 0

/-- `ip_standard_checksum`: fold the (u32) word sum twice, return as `u16`. -/
def ip_standard_checksum (data : List Nat) : Nat :=
  let acc := sum16 data % 4294967296
  let acc2 := acc / 65536 + acc % 65536
  let acc3 := if 65536 ≤ acc2 then acc2 / 65536 + acc2 % 65536 else acc2
  acc3 % 65536

/-- `inet_checksum`: bitwise NOT (`!` on `u16`) of the folded sum. -/
def inet_checksum (data : List Nat) : Nat :=
  65535 - ip_standard_checksum data

/-- `copy_from_slice` of `vs` into `l` starting at offset `off`. -/
def writeSlice (l : List Nat) (off : Nat) : List Nat → List Nat
  | [] => l
  | v :: vs => writeSlice (l.set off v) (off + 1) vs

/-- The adjusted byte `k` of `encode_length_prefix` step 3: starting from the
random printable draw `k0`, force its low bit to 0 when the first digit `f0`
is the zero pad `0x20`, otherwise force it to 1 (with the `0x7f → 0x21`
wrap). -/
def prefixK1 (k0 f0 : Nat) : Nat :=
  if f0 = 0x20 then (if k0 % 2 ≠ 0 then (k0 + 1) % 256 else k0)
  else if k0 % 2 = 0 then (if 0x7e < (k0 + 1) % 256 then 0x21 else (k0 + 1) % 256)
  else k0

/-- The byte `f` of `encode_length_prefix` step 3: re-randomised from draw
`rf` when the first digit was the zero pad, otherwise kept. -/
def prefixF1 (rf f0 : Nat) : Nat :=
  if f0 = 0x20 then random_range rf 0x20 0x7e else f0

/-- The base-94 digit bytes of the key-biased wire length
`(payload_len as u32 + key % M) % M`. -/
def lengthDigits (payload_len key : Nat) : List Nat :=
  base94_decimal_encode
    ((payload_len % 4294967296 + key % HEADER_MSS_MOD) % HEADER_MSS_MOD)

/-- The 4-byte flagged prefix of `encode_length_prefix` (buffer positions
0..4 after steps 2-4): digits written right-aligned over the `0x20` fill,
positions 0 and 1 replaced by `k` and `f`, positions 2 and 3 swapped. -/
def prefixBytes (payload_len key rk rf : Nat) : List Nat :=
  let pfx := writeSlice [0x20, 0x20, 0x20, 0x20]
    (4 - (lengthDigits payload_len key).length) (lengthDigits payload_len key)
  swapIdx ((pfx.set 0 (prefixK1 (random_range rk 0x20 0x7e) (pfx.getD 1 0))).set 1
    (prefixF1 rf (pfx.getD 1 0))) 2 3

/-- The 3-byte verification tail before shuffling: the base-94 digits of
`(checksum ^ payload_len + key % M) % M`. -/
def verifyDigits (payload_len key rk rf : Nat) : List Nat :=
  base94_decimal_encode
    (((inet_checksum (prefixBytes payload_len key rk rf) ^^^ (payload_len % 4294967296))
      + key % HEADER_MSS_MOD) % HEADER_MSS_MOD)

/-- `encode_length_prefix`.  The source works in a 7-byte buffer whose first
4 bytes are the flagged prefix and whose last 3 bytes are the verification
tail; here the two disjoint regions are `prefixBytes` and the shuffled
`verifyDigits`.  `rk` and `rf` are the raw `u32` rng draws for `k` and for
the re-randomised `f` (only consumed on the zero-pad branch).  The returned
`Bool` is the value of the `short_only` flag after the call. -/
def lengthPrefixEncode (payload_len key rk rf : Nat) (short_only : Bool) :
    Except CtcpError (List Nat) × Bool :=
  if payload_len = 0 then (.error (.invalidData "CTCP payload empty"), short_only)
  else if HEADER_MSS_MOD ≤ payload_len % 4294967296 then
    (.error (.invalidData "CTCP payload encoding too long"), short_only)
  else if (lengthDigits payload_len key).length = 0
      ∨ 4 ≤ (lengthDigits payload_len key).length then
    (.error (.invalidData "CTCP length field illegal"), short_only)
  else if short_only then (.ok (prefixBytes payload_len key rk rf), short_only)
  else if (verifyDigits payload_len key rk rf).length ≠ 3 then
    (.error (.invalidData "CTCP verify length illegal"), short_only)
  else
    (.ok (prefixBytes payload_len key rk rf
      ++ shuffle_bytes (verifyDigits payload_len key rk rf) key), true)

/-- `decode_length_prefix`.  Returns `(payload_ascii_len, prefix_len)` and the
`short_only` flag after the call. -/
def lengthPrefixDecode (data : List Nat) (key : Nat) (short_only : Bool) :
    Except CtcpError (Nat × Nat) × Bool :=
  if short_only then
    if data.length < 4 then (.error (.unexpectedEof "CTCP prefix too short"), short_only)
    else
      let buf := base94_decode_kf (data.take 4)
      let kf_mod := key % HEADER_MSS_MOD
      match base94_decimal_decode ((buf.drop 1).take 3) with
      | .error e => (.error e, short_only)
      | .ok raw =>
        let length := (raw + HEADER_MSS_MOD - kf_mod) % HEADER_MSS_MOD
        if length = 0 then (.error (.invalidData "CTCP length zero"), short_only)
        else (.ok (length, 4), short_only)
  else
    if data.length < 7 then (.error (.unexpectedEof "CTCP prefix too short"), short_only)
    else
      let checksum := inet_checksum (data.take 4)
      let buf := base94_decode_kf (data.take 4)
      let kf_mod := key % HEADER_MSS_MOD
      match base94_decimal_decode ((buf.drop 1).take 3) with
      | .error e => (.error e, short_only)
      | .ok raw_length =>
        let length := (raw_length + HEADER_MSS_MOD - kf_mod) % HEADER_MSS_MOD
        if length = 0 then (.error (.invalidData "CTCP length zero"), short_only)
        else
          match base94_decimal_decode (unshuffle_bytes ((data.drop 4).take 3) key) with
          | .error e => (.error e, short_only)
          | .ok raw_verify =>
            let verify := (raw_verify + HEADER_MSS_MOD - kf_mod) % HEADER_MSS_MOD
            let expected := checksum ^^^ length
            if verify ≠ expected then
              (.error (.invalidData "CTCP length verify failed"), short_only)
            else (.ok (length, 7), true)

/-- The masked, shuffled, delta-encoded header-plus-body of `CtcpTx::encode`
(steps 1-5 before base-94 encoding); `rh` is the raw rng draw for the header
nonce byte. -/
def CtcpTx.buildPacket (data : List Nat) (key rh : Nat) : List Nat :=
  let key_byte := mask_key key
  let h0 := random_range rh 0x01 0xff
  let len_minus_one := data.length - 1
  let frame_key_full := key ^^^ h0
  let frame_key_byte := mask_key frame_key_full
  let htail := shuffle_bytes
    (mask_bytes [len_minus_one / 256, len_minus_one % 256] frame_key_byte) frame_key_full
  let header := delta_encode_in_place (h0 :: htail) key_byte
  let working := delta_encode_in_place
    (shuffle_bytes (mask_bytes data frame_key_byte) frame_key_full) key_byte
  header ++ working

/-- `CtcpTx::encode`.  `rh`, `rk`, `rf` are the raw rng draws for the header
nonce, the prefix byte `k` and the re-randomised pad digit `f`. -/
def CtcpTx.encode (data : List Nat) (key rh rk rf : Nat) (short_only : Bool) :
    Except CtcpError (List Nat) × Bool :=
  if data.isEmpty then (.ok [], short_only)
  else if 65536 < data.length then
    (.error (.invalidData "CTCP frame payload too long"), short_only)
  else
    match lengthPrefixEncode
      (base94_encode_into (CtcpTx.buildPacket data key rh) (mask_key key)).length
      key rk rf short_only with
    | (.error e, so) => (.error e, so)
    | (.ok pfx, so) =>
      (.ok (pfx ++ base94_encode_into (CtcpTx.buildPacket data key rh) (mask_key key)), so)

/-- Tail of `CtcpRx::decode` once the base-94 body `working` is in hand:
recover the header, derive the frame key, undo the per-frame transforms and
check the declared length. -/
def CtcpRx.decodeBody (working : List Nat) (key : Nat) (so : Bool) :
    Except CtcpError (List Nat) × Bool :=
  if working.length < 3 then (.error (.invalidData "CTCP header too short"), so)
  else
    let headerd := delta_decode_in_place (working.take 3) (mask_key key)
    let frame_key_full := key ^^^ headerd.getD 0 0
    let frame_key_byte := mask_key frame_key_full
    let htail := mask_bytes (unshuffle_bytes (headerd.drop 1) frame_key_full)
      frame_key_byte
    let expected := ((htail.getD 0 0) * 256 ||| htail.getD 1 0) + 1
    let body := mask_bytes
      (unshuffle_bytes (delta_decode_in_place (working.drop 3) (mask_key key))
        frame_key_full) frame_key_byte
    if body.length ≠ expected then
      (.error (.invalidData "CTCP payload length mismatch"), so)
    else (.ok body, so)

/-- `CtcpRx::decode`. -/
def CtcpRx.decode (frame : List Nat) (key : Nat) (short_only : Bool) :
    Except CtcpError (List Nat) × Bool :=
  if frame.isEmpty then (.ok [], short_only)
  else
    match lengthPrefixDecode frame key short_only with
    | (.error e, so) => (.error e, so)
    | (.ok (payload_ascii_len, plen), so) =>
      if frame.length < plen + payload_ascii_len then
        (.error (.unexpectedEof "CTCP frame too short"), so)
      else if frame.length ≠ plen + payload_ascii_len then
        (.error (.invalidData "CTCP frame length mismatch"), so)
      else
        match base94_decode_into (mask_key key) ((frame.drop plen).take payload_ascii_len)
          with
        | .error e => (.error e, so)
        | .ok working => CtcpRx.decodeBody working key so

/-! ## Swap and shuffle lemmas -/

theorem length_swapIdx (l : List Nat) (i j : Nat) : (swapIdx l i j).length = l.length := by
  unfold swapIdx
  cases hi : l[i]? <;> cases hj : l[j]? <;> simp

theorem getElem?_swapIdx (l : List Nat) (i j t : Nat) (hi : i < l.length)
    (hj : j < l.length) :
    (swapIdx l i j)[t]? = if t = j then l[i]? else if t = i then l[j]? else l[t]? := by
  unfold swapIdx
  rw [List.getElem?_eq_getElem hi, List.getElem?_eq_getElem hj]
  by_cases h1 : t = j
  · subst h1
    rw [List.getElem?_set_self (by simpa using hj), if_pos rfl]
  · rw [List.getElem?_set_ne (fun h => h1 h.symm), if_neg h1]
    by_cases h2 : t = i
    · subst h2
      rw [List.getElem?_set_self hi, if_pos rfl]
    · rw [List.getElem?_set_ne (fun h => h2 h.symm), if_neg h2]

theorem swapIdx_swapIdx (l : List Nat) (i j : Nat) (hi : i < l.length)
    (hj : j < l.length) : swapIdx (swapIdx l i j) i j = l := by
  have hlen := length_swapIdx l i j
  apply List.ext_getElem?
  intro t
  rw [getElem?_swapIdx _ i j t (hlen ▸ hi) (hlen ▸ hj)]
  rw [getElem?_swapIdx l i j i hi hj, getElem?_swapIdx l i j j hi hj,
    getElem?_swapIdx l i j t hi hj]
  by_cases h1 : t = j <;> by_cases h2 : t = i <;> by_cases h3 : i = j <;>
    simp_all

theorem mem_of_mem_swapIdx (l : List Nat) (i j : Nat) (x : Nat)
    (hx : x ∈ swapIdx l i j) : x ∈ l := by
  unfold swapIdx at hx
  cases hi : l[i]? with
  | none => simp [hi] at hx; exact hx
  | some a =>
    cases hj : l[j]? with
    | none => simp [hi, hj] at hx; exact hx
    | some b =>
      simp only [hi, hj] at hx
      rcases List.mem_or_eq_of_mem_set hx with h | h
      · rcases List.mem_or_eq_of_mem_set h with h2 | h2
        · exact h2
        · exact h2 ▸ List.getElem?_mem hj
      · exact h ▸ List.getElem?_mem hi

theorem applySwaps_nil (l : List Nat) : applySwaps l [] = l := rfl

theorem applySwaps_cons (l : List Nat) (p : Nat × Nat) (sw : List (Nat × Nat)) :
    applySwaps l (p :: sw) = applySwaps (swapIdx l p.1 p.2) sw := rfl

theorem applySwaps_append (l : List Nat) (s1 s2 : List (Nat × Nat)) :
    applySwaps l (s1 ++ s2) = applySwaps (applySwaps l s1) s2 := by
  simp [applySwaps]

theorem length_applySwaps (sw : List (Nat × Nat)) (l : List Nat) :
    (applySwaps l sw).length = l.length := by
  induction sw generalizing l with
  | nil => rfl
  | cons p sw ih => rw [applySwaps_cons, ih, length_swapIdx]

theorem applySwaps_reverse_cancel (sw : List (Nat × Nat)) (l : List Nat)
    (hv : ∀ p ∈ sw, p.1 < l.length ∧ p.2 < l.length) :
    applySwaps (applySwaps l sw) sw.reverse = l := by
  induction sw generalizing l with
  | nil => rfl
  | cons p sw ih =>
    have hp := hv p (List.mem_cons_self p sw)
    have hlen := length_swapIdx l p.1 p.2
    rw [applySwaps_cons, List.reverse_cons, applySwaps_append,
      ih (swapIdx l p.1 p.2) (fun q hq => hlen ▸ hv q (List.mem_cons_of_mem p hq))]
    show swapIdx (swapIdx l p.1 p.2) p.1 p.2 = l
    exact swapIdx_swapIdx l p.1 p.2 hp.1 hp.2

theorem mem_of_mem_applySwaps (sw : List (Nat × Nat)) (l : List Nat) (x : Nat)
    (hx : x ∈ applySwaps l sw) : x ∈ l := by
  induction sw generalizing l with
  | nil => exact hx
  | cons p sw ih =>
    rw [applySwaps_cons] at hx
    exact mem_of_mem_swapIdx l p.1 p.2 x (ih _ hx)

theorem fast_mod_u32_lt (v m : Nat) (hm : 0 < m) : fast_mod_u32 v m < m := by
  unfold fast_mod_u32
  rcases Nat.eq_zero_or_pos (m % 4294967296) with h | h
  · rw [h, Nat.mul_zero, Nat.zero_div]; exact hm
  · calc (v % 4294967296) * (m % 4294967296) / 4294967296
        < m % 4294967296 := by
          rw [Nat.div_lt_iff_lt_mul (by norm_num)]
          calc (v % 4294967296) * (m % 4294967296)
              < 4294967296 * (m % 4294967296) :=
                Nat.mul_lt_mul_of_pos_right (Nat.mod_lt v (by norm_num)) h
            _ = (m % 4294967296) * 4294967296 := Nat.mul_comm _ _
      _ ≤ m := Nat.mod_le m 4294967296

theorem shuffleSwaps_valid (len key : Nat) (hl : 0 < len) :
    ∀ p ∈ shuffleSwaps len key, p.1 < len ∧ p.2 < len := by
  intro p hp
  unfold shuffleSwaps at hp
  rcases List.mem_map.mp hp with ⟨i, hi, rfl⟩
  exact ⟨List.mem_range.mp hi, fast_mod_u32_lt _ _ hl⟩

theorem length_shuffle_bytes (l : List Nat) (key : Nat) :
    (shuffle_bytes l key).length = l.length := by
  unfold shuffle_bytes
  split
  · rfl
  · exact length_applySwaps _ _

theorem length_unshuffle_bytes (l : List Nat) (key : Nat) :
    (unshuffle_bytes l key).length = l.length := by
  unfold unshuffle_bytes
  split
  · rfl
  · exact length_applySwaps _ _

theorem unshuffle_shuffle (l : List Nat) (key : Nat) :
    unshuffle_bytes (shuffle_bytes l key) key = l := by
  unfold shuffle_bytes unshuffle_bytes
  by_cases h : l.length ≤ 1
  · simp [h]
  · rw [if_neg h, length_applySwaps, if_neg h]
    exact applySwaps_reverse_cancel _ l (shuffleSwaps_valid _ key (by omega))

theorem mem_of_mem_shuffle (l : List Nat) (key : Nat) (x : Nat)
    (hx : x ∈ shuffle_bytes l key) : x ∈ l := by
  unfold shuffle_bytes at hx
  split at hx
  · exact hx
  · exact mem_of_mem_applySwaps _ _ _ hx

theorem mem_of_mem_unshuffle (l : List Nat) (key : Nat) (x : Nat)
    (hx : x ∈ unshuffle_bytes l key) : x ∈ l := by
  unfold unshuffle_bytes at hx
  split at hx
  · exact hx
  · exact mem_of_mem_applySwaps _ _ _ hx

/-! ## Mask and delta lemmas -/

theorem length_mask_bytes (l : List Nat) (key : Nat) :
    (mask_bytes l key).length = l.length := by
  unfold mask_bytes
  split
  · rfl
  · simp

theorem mask_mask (l : List Nat) (key : Nat) : mask_bytes (mask_bytes l key) key = l := by
  by_cases h : key = 0
  · simp [mask_bytes, h]
  · have hfun : ((fun b => b ^^^ key) ∘ fun b : Nat => b ^^^ key) = id := funext fun b => by
      simp [Function.comp, Nat.xor_assoc]
    simp only [mask_bytes, if_neg h, List.map_map, hfun, List.map_id]

theorem mem_mask_lt (l : List Nat) (key : Nat) (hk : key < 256)
    (hl : ∀ b ∈ l, b < 256) : ∀ b ∈ mask_bytes l key, b < 256 := by
  intro b hb
  unfold mask_bytes at hb
  split at hb
  · exact hl b hb
  · rcases List.mem_map.mp hb with ⟨a, ha, rfl⟩
    have h256 : (256 : Nat) = 2 ^ 8 := by norm_num
    rw [h256] at hk hl ⊢
    exact Nat.xor_lt_two_pow (hl a ha) hk

theorem wsub_lt (a b : Nat) : wsub a b < 256 := by
  unfold wsub; omega

theorem wadd_lt (a b : Nat) : wadd a b < 256 := by
  unfold wadd; omega

theorem wadd_wsub (a b : Nat) (ha : a < 256) : wadd (wsub a b) b = a := by
  unfold wadd wsub; omega

theorem wadd_wsub_left (a b : Nat) (ha : a < 256) : wadd b (wsub a b) = a := by
  unfold wadd wsub; omega

theorem deltaDec_deltaEnc_aux (l : List Nat) (p : Nat) (hl : ∀ b ∈ l, b < 256) :
    deltaDecAux p (deltaEncAux p l) = l := by
  induction l generalizing p with
  | nil => rfl
  | cons c rest ih =>
    have hc : c < 256 := hl c (List.mem_cons_self c rest)
    show wadd p (wsub c p) :: deltaDecAux (wadd p (wsub c p)) (deltaEncAux c rest) = c :: rest
    rw [wadd_wsub_left c p hc]
    exact congrArg (c :: ·) (ih c (fun b hb => hl b (List.mem_cons_of_mem c hb)))

theorem deltaDec_deltaEnc (l : List Nat) (key : Nat) (hl : ∀ b ∈ l, b < 256) :
    delta_decode_in_place (delta_encode_in_place l key) key = l := by
  cases l with
  | nil => rfl
  | cons d0 rest =>
    have hd : d0 < 256 := hl d0 (List.mem_cons_self d0 rest)
    show wadd (wsub d0 key) key :: deltaDecAux (wadd (wsub d0 key) key) (deltaEncAux d0 rest)
      = d0 :: rest
    rw [wadd_wsub d0 key hd]
    exact congrArg (d0 :: ·)
      (deltaDec_deltaEnc_aux rest d0 (fun b hb => hl b (List.mem_cons_of_mem d0 hb)))

theorem length_deltaEncAux (l : List Nat) (p : Nat) : (deltaEncAux p l).length = l.length := by
  induction l generalizing p with
  | nil => rfl
  | cons c rest ih => simpa [deltaEncAux] using ih c

theorem length_delta_encode (l : List Nat) (key : Nat) :
    (delta_encode_in_place l key).length = l.length := by
  cases l with
  | nil => rfl
  | cons d0 rest => simpa [delta_encode_in_place] using length_deltaEncAux rest d0

theorem length_deltaDecAux (l : List Nat) (c : Nat) : (deltaDecAux c l).length = l.length := by
  induction l generalizing c with
  | nil => rfl
  | cons b rest ih => simpa [deltaDecAux] using ih (wadd c b)

theorem length_delta_decode (l : List Nat) (key : Nat) :
    (delta_decode_in_place l key).length = l.length := by
  cases l with
  | nil => rfl
  | cons d0 rest => simpa [delta_decode_in_place] using length_deltaDecAux rest (wadd d0 key)

theorem mem_deltaEncAux_lt (l : List Nat) (p : Nat) :
    ∀ b ∈ deltaEncAux p l, b < 256 := by
  induction l generalizing p with
  | nil => intro b hb; cases hb
  | cons c rest ih =>
    intro b hb
    rcases List.mem_cons.mp hb with h | h
    · exact h ▸ wsub_lt c p
    · exact ih c b h

theorem mem_delta_encode_lt (l : List Nat) (key : Nat) :
    ∀ b ∈ delta_encode_in_place l key, b < 256 := by
  cases l with
  | nil => intro b hb; cases hb
  | cons d0 rest =>
    intro b hb
    rcases List.mem_cons.mp hb with h | h
    · exact h ▸ wsub_lt d0 key
    · exact mem_deltaEncAux_lt rest d0 b h

/-! ## Base-94 body codec lemmas -/

theorem base94_encode_byte_printable (key b : Nat) :
    ∀ x ∈ base94_encode_byte key b, 0x20 ≤ x ∧ x ≤ 0x7e := by
  intro x hx
  unfold base94_encode_byte at hx
  have hadj : wsub b key < 256 := wsub_lt b key
  split at hx
  · rcases List.mem_cons.mp hx with h | h
    · subst h
      have h1 : wsub b key / 93 ≤ 2 := by omega
      have h2 : 1 ≤ wsub b key / 93 := by
        rename_i hge; exact (Nat.one_le_div_iff (by norm_num)).mpr hge
      omega
    · rcases List.mem_cons.mp h with h2 | h2
      · subst h2
        have : wsub b key % 93 < 93 := Nat.mod_lt _ (by norm_num)
        omega
      · cases h2
  · rcases List.mem_cons.mp hx with h | h
    · subst h
      rename_i hlt
      omega
    · cases h

theorem base94_printable (data : List Nat) (key : Nat) :
    ∀ x ∈ base94_encode_into data key, 0x20 ≤ x ∧ x ≤ 0x7e := by
  intro x hx
  unfold base94_encode_into at hx
  rcases List.mem_flatMap.mp hx with ⟨b, _, hmem⟩
  exact base94_encode_byte_printable key b x hmem

theorem length_base94_ge (data : List Nat) (key : Nat) :
    data.length ≤ (base94_encode_into data key).length := by
  induction data with
  | nil => simp [base94_encode_into]
  | cons b rest ih =>
    have : base94_encode_into (b :: rest) key
        = base94_encode_byte key b ++ base94_encode_into rest key := by
      simp [base94_encode_into]
    rw [this, List.length_append, List.length_cons]
    have hb : 1 ≤ (base94_encode_byte key b).length := by
      unfold base94_encode_byte
      split <;> simp
    omega

theorem length_base94_le (data : List Nat) (key : Nat) :
    (base94_encode_into data key).length ≤ 2 * data.length := by
  induction data with
  | nil => simp [base94_encode_into]
  | cons b rest ih =>
    have : base94_encode_into (b :: rest) key
        = base94_encode_byte key b ++ base94_encode_into rest key := by
      simp [base94_encode_into]
    rw [this, List.length_append, List.length_cons]
    have hb : (base94_encode_byte key b).length ≤ 2 := by
      unfold base94_encode_byte
      split <;> simp
    omega

theorem base94_decode_byte_step (key b : Nat) (hb : b < 256) (rest : List Nat)
    (restDec : List Nat) (hrest : base94_decode_into key rest = .ok restDec) :
    base94_decode_into key (base94_encode_byte key b ++ rest) = .ok (b :: restDec) := by
  have hadj : wsub b key < 256 := wsub_lt b key
  unfold base94_encode_byte
  by_cases hge : 93 ≤ wsub b key
  · rw [if_pos hge]
    have hdiv1 : 1 ≤ wsub b key / 93 := (Nat.one_le_div_iff (by norm_num)).mpr hge
    have hdiv2 : wsub b key / 93 ≤ 2 := by omega
    have hmod : wsub b key % 93 < 93 := Nat.mod_lt _ (by norm_num)
    have hcomb : (0x20 + (wsub b key / 93 - 1) + 93 - 0x20 - 93 + 1) * 93
        + (0x20 + wsub b key % 93 - 0x20) = wsub b key := by
      have := Nat.div_add_mod (wsub b key) 93
      omega
    rw [List.cons_append, List.cons_append, List.nil_append]
    unfold base94_decode_into
    rw [if_neg (by omega), if_pos (by omega)]
    show (if 0x20 + wsub b key % 93 < 0x20 ∨ 0x7e < 0x20 + wsub b key % 93 then
        (Except.error (CtcpError.invalidData "non-printable CTCP symbol") :
          Except CtcpError (List Nat))
      else if 93 ≤ 0x20 + wsub b key % 93 - 0x20 then
        Except.error (CtcpError.invalidData "CTCP low digit overflow")
      else if 255 < (0x20 + (wsub b key / 93 - 1) + 93 - 0x20 - 93 + 1) * 93
          + (0x20 + wsub b key % 93 - 0x20) then
        Except.error (CtcpError.invalidData "CTCP combined byte out of range")
      else
        match base94_decode_into key rest with
        | .ok tail =>
          .ok (wadd ((0x20 + (wsub b key / 93 - 1) + 93 - 0x20 - 93 + 1) * 93
            + (0x20 + wsub b key % 93 - 0x20)) key :: tail)
        | .error e => .error e) = Except.ok (b :: restDec)
    rw [if_neg (by omega), if_neg (by omega), if_neg (by omega), hrest]
    show Except.ok (wadd ((0x20 + (wsub b key / 93 - 1) + 93 - 0x20 - 93 + 1) * 93
      + (0x20 + wsub b key % 93 - 0x20)) key :: restDec) = Except.ok (b :: restDec)
    rw [hcomb, wadd_wsub b key hb]
  · rw [if_neg hge]
    rw [List.cons_append, List.nil_append]
    unfold base94_decode_into
    rw [if_neg (by omega), if_neg (by omega), hrest]
    show Except.ok (wadd (0x20 + wsub b key - 0x20) key :: restDec) = Except.ok (b :: restDec)
    rw [show 0x20 + wsub b key - 0x20 = wsub b key by omega, wadd_wsub b key hb]

theorem base94_roundtrip (data : List Nat) (key : Nat) (hd : ∀ b ∈ data, b < 256) :
    base94_decode_into key (base94_encode_into data key) = .ok data := by
  induction data with
  | nil => rfl
  | cons b rest ih =>
    have hb : b < 256 := hd b (List.mem_cons_self b rest)
    have hrest := ih (fun x hx => hd x (List.mem_cons_of_mem b hx))
    have henc : base94_encode_into (b :: rest) key
        = base94_encode_byte key b ++ base94_encode_into rest key := by
      simp [base94_encode_into]
    rw [henc]
    exact base94_decode_byte_step key b hb _ rest hrest

/-! ## Base-94 decimal (length field) lemmas -/

theorem base94DigitsGo_zero (fuel : Nat) : base94DigitsGo fuel 0 = [] := by
  cases fuel <;> simp [base94DigitsGo]

theorem base94DigitsGo_fuel (f1 f2 v : Nat) (h1 : v ≤ f1) (h2 : v ≤ f2) :
    base94DigitsGo f1 v = base94DigitsGo f2 v := by
  induction f1 generalizing f2 v with
  | zero =>
    have : v = 0 := by omega
    subst this
    rw [base94DigitsGo_zero, base94DigitsGo_zero]
  | succ f1 ih =>
    by_cases hv : v = 0
    · subst hv
      rw [base94DigitsGo_zero, base94DigitsGo_zero]
    · cases f2 with
      | zero => omega
      | succ f2 =>
        show (if v = 0 then [] else v % 94 :: base94DigitsGo f1 (v / 94))
          = (if v = 0 then [] else v % 94 :: base94DigitsGo f2 (v / 94))
        rw [if_neg hv, if_neg hv]
        have hd : v / 94 < v := Nat.div_lt_self (by omega) (by norm_num)
        rw [ih f2 (v / 94) (by omega) (by omega)]

theorem base94DigitsGo_unfold (v : Nat) (hv : 1 ≤ v) :
    base94DigitsGo v v = v % 94 :: base94DigitsGo (v / 94) (v / 94) := by
  cases v with
  | zero => omega
  | succ v =>
    show (if v + 1 = 0 then [] else (v + 1) % 94 :: base94DigitsGo v ((v + 1) / 94))
      = (v + 1) % 94 :: base94DigitsGo ((v + 1) / 94) ((v + 1) / 94)
    rw [if_neg (by omega)]
    have hd : (v + 1) / 94 ≤ v := by
      have := Nat.div_lt_self (show 0 < v + 1 by omega) (show 1 < 94 by norm_num)
      omega
    rw [base94DigitsGo_fuel v ((v + 1) / 94) ((v + 1) / 94) hd (Nat.le_refl _)]

theorem digits_one (v : Nat) (h1 : 1 ≤ v) (h2 : v < 94) :
    base94DigitsGo v v = [v] := by
  rw [base94DigitsGo_unfold v h1, Nat.mod_eq_of_lt h2, Nat.div_eq_of_lt h2,
    base94DigitsGo_zero]

theorem digits_two (v : Nat) (h1 : 94 ≤ v) (h2 : v < 8836) :
    base94DigitsGo v v = [v % 94, v / 94] := by
  rw [base94DigitsGo_unfold v (by omega)]
  have hq1 : 1 ≤ v / 94 := (Nat.one_le_div_iff (by norm_num)).mpr h1
  have hq2 : v / 94 < 94 := by omega
  rw [digits_one (v / 94) hq1 hq2]

theorem digits_three (v : Nat) (h1 : 8836 ≤ v) (h2 : v < 830584) :
    base94DigitsGo v v = [v % 94, v / 94 % 94, v / 94 / 94] := by
  rw [base94DigitsGo_unfold v (by omega)]
  have hq1 : 94 ≤ v / 94 := by omega
  have hq2 : v / 94 < 8836 := by omega
  rw [digits_two (v / 94) hq1 hq2]

theorem mem_base94DigitsGo_lt (fuel v : Nat) :
    ∀ d ∈ base94DigitsGo fuel v, d < 94 := by
  induction fuel generalizing v with
  | zero => intro d hd; cases hd
  | succ fuel ih =>
    intro d hd
    by_cases hv : v = 0
    · subst hv; rw [base94DigitsGo_zero] at hd; cases hd
    · have : base94DigitsGo (fuel + 1) v = v % 94 :: base94DigitsGo fuel (v / 94) := by
        show (if v = 0 then [] else _) = _
        rw [if_neg hv]
      rw [this] at hd
      rcases List.mem_cons.mp hd with h | h
      · exact h ▸ Nat.mod_lt _ (by norm_num)
      · exact ih (v / 94) d h

theorem mem_decimal_encode (v : Nat) :
    ∀ b ∈ base94_decimal_encode v, 0x20 ≤ b ∧ b ≤ 0x7d := by
  intro b hb
  unfold base94_decimal_encode at hb
  split at hb
  · rcases List.mem_cons.mp hb with h | h
    · omega
    · cases h
  · rcases List.mem_map.mp hb with ⟨d, hd, rfl⟩
    have := mem_base94DigitsGo_lt v v d (List.mem_reverse.mp hd)
    omega

theorem decimal_encode_length_pos (v : Nat) : 1 ≤ (base94_decimal_encode v).length := by
  unfold base94_decimal_encode
  split
  · simp
  · rename_i hv
    rw [base94DigitsGo_unfold v (by omega)]
    simp

theorem decimal_encode_length_le (v : Nat) (hv : v < 830584) :
    (base94_decimal_encode v).length ≤ 3 := by
  unfold base94_decimal_encode
  split
  · simp
  · rename_i h0
    rcases Nat.lt_or_ge v 94 with h | h
    · rw [digits_one v (by omega) h]; simp
    · rcases Nat.lt_or_ge v 8836 with h2 | h2
      · rw [digits_two v h h2]; simp
      · rw [digits_three v h2 hv]; simp

theorem decimal_encode_length_three (v : Nat) (h1 : 8836 ≤ v) (h2 : v < 830584) :
    (base94_decimal_encode v).length = 3 := by
  unfold base94_decimal_encode
  rw [if_neg (by omega), digits_three v h1 h2]
  simp

theorem decimal_encode_length_lt_three (v : Nat) (hv : v < 8836) :
    (base94_decimal_encode v).length < 3 := by
  unfold base94_decimal_encode
  split
  · simp
  · rename_i h0
    rcases Nat.lt_or_ge v 94 with h | h
    · rw [digits_one v (by omega) h]; simp
    · rw [digits_two v h hv]; simp

theorem base94DecimalGo_printable (l : List Nat) (acc : Nat)
    (h : ∀ b ∈ l, 0x20 ≤ b ∧ b ≤ 0x7e) :
    base94DecimalGo acc l = .ok (l.foldl (fun a b => a * 94 + (b - 0x20)) acc) := by
  induction l generalizing acc with
  | nil => rfl
  | cons b rest ih =>
    have hb := h b (List.mem_cons_self b rest)
    show (if b < 0x20 ∨ 0x7e < b then _ else base94DecimalGo (acc * 94 + (b - 0x20)) rest) = _
    rw [if_neg (by omega)]
    rw [ih _ (fun x hx => h x (List.mem_cons_of_mem b hx))]
    rfl

theorem foldl_digit_bytes (v : Nat) : ∀ acc : Nat,
    (((base94DigitsGo v v).reverse.map (fun d => d + 0x20)).foldl
      (fun a b => a * 94 + (b - 0x20)) acc)
      = acc * 94 ^ (base94DigitsGo v v).length + v := by
  induction v using Nat.strong_induction_on with
  | _ v ih =>
    intro acc
    by_cases hv : v = 0
    · subst hv
      rw [base94DigitsGo_zero]
      simp
    · rw [base94DigitsGo_unfold v (by omega)]
      have hlt : v / 94 < v := Nat.div_lt_self (by omega) (by norm_num)
      rw [List.reverse_cons, List.map_append, List.foldl_append]
      rw [ih (v / 94) hlt acc]
      show (acc * 94 ^ (base94DigitsGo (v / 94) (v / 94)).length + v / 94) * 94
          + (v % 94 + 0x20 - 0x20) = acc * 94 ^ ((base94DigitsGo (v / 94) (v / 94)).length + 1) + v
      have hmod : v % 94 + 0x20 - 0x20 = v % 94 := by omega
      rw [hmod, Nat.pow_succ]
      have := Nat.div_add_mod v 94
      ring_nf
      omega

theorem foldl_pad (p acc : Nat) (hacc : acc = 0) :
    (List.replicate p 0x20).foldl (fun a b => a * 94 + (b - 0x20)) acc = 0 := by
  subst hacc
  induction p with
  | zero => rfl
  | succ p ih => simpa [List.replicate_succ] using ih

theorem decimal_decode_padded (v p : Nat) (hv : v < 830584)
    (hlen : p + (base94_decimal_encode v).length = 3) :
    base94_decimal_decode (List.replicate p 0x20 ++ base94_decimal_encode v) = .ok v := by
  have hprint : ∀ b ∈ List.replicate p 0x20 ++ base94_decimal_encode v,
      0x20 ≤ b ∧ b ≤ 0x7e := by
    intro b hb
    rcases List.mem_append.mp hb with h | h
    · have := List.eq_of_mem_replicate h
      omega
    · have := mem_decimal_encode v b h
      omega
  have hlen2 : (List.replicate p 0x20 ++ base94_decimal_encode v).length = 3 := by
    rw [List.length_append, List.length_replicate]
    omega
  have hnil : (List.replicate p 0x20 ++ base94_decimal_encode v) ≠ [] := by
    intro h0
    rw [h0] at hlen2
    simp at hlen2
  unfold base94_decimal_decode
  rw [if_neg (by
    push_neg
    exact ⟨fun h => absurd (List.isEmpty_iff.mp h) hnil, by omega⟩)]
  rw [base94DecimalGo_printable _ 0 hprint, List.foldl_append, foldl_pad p 0 rfl]
  unfold base94_decimal_encode
  split
  · rename_i h0
    subst h0
    rfl
  · rw [foldl_digit_bytes v 0]
    simp

/-! ## Length-prefix codec lemmas -/

theorem hM_eq : HEADER_MSS_MOD = 830583 := rfl

theorem inet_checksum_le (data : List Nat) : inet_checksum data ≤ 65535 :=
  Nat.sub_le 65535 _

theorem random_range_bounds (v mn mx : Nat) (hmn : mn < mx) (hmx : mx ≤ 255) :
    mn ≤ random_range v mn mx ∧ random_range v mn mx < mx := by
  unfold random_range
  rw [Nat.mod_eq_of_lt (show mx - mn < 256 by omega)]
  have hfm : fast_mod_u32 v (mx - mn) < mx - mn := fast_mod_u32_lt v _ (by omega)
  omega

theorem prefixK1_spec (k0 f0 : Nat) (hk1 : 0x20 ≤ k0) (hk2 : k0 ≤ 0x7d) :
    0x20 ≤ prefixK1 k0 f0 ∧ prefixK1 k0 f0 ≤ 0x7e ∧
    (f0 = 0x20 → prefixK1 k0 f0 % 2 = 0) ∧ (f0 ≠ 0x20 → prefixK1 k0 f0 % 2 = 1) := by
  unfold prefixK1
  split_ifs <;> omega

theorem prefixF1_pad (rf : Nat) : prefixF1 rf 0x20 = random_range rf 0x20 0x7e := by
  simp [prefixF1]

theorem prefixF1_nonpad (rf f0 : Nat) (h : f0 ≠ 0x20) : prefixF1 rf f0 = f0 := by
  simp [prefixF1, h]

theorem decode_kf_of_coding (p1 p2 p3 k1 f1 : Nat)
    (hcase : (p1 = 0x20 ∧ k1 % 2 = 0) ∨ (p1 ≠ 0x20 ∧ k1 % 2 = 1 ∧ f1 = p1)) :
    base94_decode_kf [k1, f1, p3, p2] = [0x20, p1, p2, p3] := by
  rcases hcase with ⟨hp, hk⟩ | ⟨hp, hk, hf⟩
  · subst hp
    unfold base94_decode_kf
    rw [if_pos (by simp)]
    show swapIdx ((if k1 % 2 = 0 then [k1, f1, p3, p2].set 1 0x20
      else [k1, f1, p3, p2]).set 0 0x20) 2 3 = [0x20, 0x20, p2, p3]
    rw [if_pos hk]
    rfl
  · rw [hf]
    unfold base94_decode_kf
    rw [if_pos (by simp)]
    show swapIdx ((if k1 % 2 = 0 then [k1, p1, p3, p2].set 1 0x20
      else [k1, p1, p3, p2]).set 0 0x20) 2 3 = [0x20, p1, p2, p3]
    rw [if_neg (by omega)]
    rfl

theorem lengthDigits_eq (L key : Nat) (hL : L < 4294967296) :
    lengthDigits L key
      = base94_decimal_encode ((L + key % HEADER_MSS_MOD) % HEADER_MSS_MOD) := by
  unfold lengthDigits
  rw [Nat.mod_eq_of_lt hL]

theorem lengthDigits_pos (L key : Nat) : 1 ≤ (lengthDigits L key).length := by
  unfold lengthDigits
  exact decimal_encode_length_pos _

theorem lengthDigits_le (L key : Nat) : (lengthDigits L key).length ≤ 3 := by
  unfold lengthDigits
  exact decimal_encode_length_le _ (by
    have := Nat.mod_lt (L % 4294967296 + key % HEADER_MSS_MOD)
      (show 0 < HEADER_MSS_MOD by rw [hM_eq]; norm_num)
    rw [hM_eq] at this ⊢
    omega)

theorem mem_lengthDigits (L key : Nat) :
    ∀ b ∈ lengthDigits L key, 0x20 ≤ b ∧ b ≤ 0x7d := by
  unfold lengthDigits
  exact mem_decimal_encode _

theorem prefixBytes_one (L key rk rf a : Nat) (hshape : lengthDigits L key = [a]) :
    prefixBytes L key rk rf
      = [prefixK1 (random_range rk 0x20 0x7e) 0x20, prefixF1 rf 0x20, a, 0x20] := by
  unfold prefixBytes
  rw [hshape]
  rfl

theorem prefixBytes_two (L key rk rf a b : Nat) (hshape : lengthDigits L key = [a, b]) :
    prefixBytes L key rk rf
      = [prefixK1 (random_range rk 0x20 0x7e) 0x20, prefixF1 rf 0x20, b, a] := by
  unfold prefixBytes
  rw [hshape]
  rfl

theorem prefixBytes_three (L key rk rf a b c : Nat)
    (hshape : lengthDigits L key = [a, b, c]) :
    prefixBytes L key rk rf
      = [prefixK1 (random_range rk 0x20 0x7e) a, prefixF1 rf a, c, b] := by
  unfold prefixBytes
  rw [hshape]
  rfl

theorem prefixBytes_spec (L key rk rf : Nat) :
    (prefixBytes L key rk rf).length = 4 ∧
    base94_decode_kf (prefixBytes L key rk rf)
      = 0x20 :: (List.replicate (3 - (lengthDigits L key).length) 0x20
        ++ lengthDigits L key) ∧
    (∀ b ∈ prefixBytes L key rk rf, 0x20 ≤ b ∧ b ≤ 0x7e) := by
  have hpos := lengthDigits_pos L key
  have hle := lengthDigits_le L key
  have hdig := mem_lengthDigits L key
  have hk0 := random_range_bounds rk 0x20 0x7e (by norm_num) (by norm_num)
  have hf0 := random_range_bounds rf 0x20 0x7e (by norm_num) (by norm_num)
  rcases hshape : lengthDigits L key with _ | ⟨a, tl⟩
  · rw [hshape] at hpos; simp at hpos
  rcases tl with _ | ⟨b, tl2⟩
  · -- one digit: pfx = [0x20, 0x20, 0x20, a]
    have hk := prefixK1_spec (random_range rk 0x20 0x7e) 0x20 hk0.1 (by omega)
    have ha : 0x20 ≤ a ∧ a ≤ 0x7d := hdig a (by rw [hshape]; exact List.mem_cons_self _ _)
    rw [prefixBytes_one L key rk rf a hshape]
    refine ⟨rfl, ?_, ?_⟩
    · rw [decode_kf_of_coding 0x20 0x20 a _ _ (Or.inl ⟨rfl, hk.2.2.1 rfl⟩)]
      rfl
    · intro x hx
      have hf1 : prefixF1 rf 0x20 = random_range rf 0x20 0x7e := prefixF1_pad rf
      simp only [List.mem_cons, List.not_mem_nil, or_false] at hx
      rcases hx with h | h | h | h <;> subst h <;> omega
  rcases tl2 with _ | ⟨c, tl3⟩
  · -- two digits: pfx = [0x20, 0x20, a, b]
    have hk := prefixK1_spec (random_range rk 0x20 0x7e) 0x20 hk0.1 (by omega)
    have ha : 0x20 ≤ a ∧ a ≤ 0x7d := hdig a (by rw [hshape]; exact List.mem_cons_self _ _)
    have hb : 0x20 ≤ b ∧ b ≤ 0x7d := hdig b (by rw [hshape]; simp)
    rw [prefixBytes_two L key rk rf a b hshape]
    refine ⟨rfl, ?_, ?_⟩
    · rw [decode_kf_of_coding 0x20 a b _ _ (Or.inl ⟨rfl, hk.2.2.1 rfl⟩)]
      rfl
    · intro x hx
      have hf1 : prefixF1 rf 0x20 = random_range rf 0x20 0x7e := prefixF1_pad rf
      simp only [List.mem_cons, List.not_mem_nil, or_false] at hx
      rcases hx with h | h | h | h <;> subst h <;> omega
  rcases tl3 with _ | ⟨d, tl4⟩
  · -- three digits: pfx = [0x20, a, b, c]
    have hk := prefixK1_spec (random_range rk 0x20 0x7e) a hk0.1 (by omega)
    have ha : 0x20 ≤ a ∧ a ≤ 0x7d := hdig a (by rw [hshape]; exact List.mem_cons_self _ _)
    have hb : 0x20 ≤ b ∧ b ≤ 0x7d := hdig b (by rw [hshape]; simp)
    have hc : 0x20 ≤ c ∧ c ≤ 0x7d := hdig c (by rw [hshape]; simp)
    have hcoding : (a = 0x20 ∧ prefixK1 (random_range rk 0x20 0x7e) a % 2 = 0)
        ∨ (a ≠ 0x20 ∧ prefixK1 (random_range rk 0x20 0x7e) a % 2 = 1
          ∧ prefixF1 rf a = a) := by
      by_cases hpad : a = 0x20
      · exact Or.inl ⟨hpad, hk.2.2.1 hpad⟩
      · exact Or.inr ⟨hpad, hk.2.2.2 hpad, prefixF1_nonpad rf a hpad⟩
    have hfb : 0x20 ≤ prefixF1 rf a ∧ prefixF1 rf a ≤ 0x7d := by
      by_cases hpad : a = 0x20
      · rw [hpad, prefixF1_pad]; omega
      · rw [prefixF1_nonpad rf a hpad]; omega
    rw [prefixBytes_three L key rk rf a b c hshape]
    refine ⟨rfl, ?_, ?_⟩
    · rw [decode_kf_of_coding a b c _ _ hcoding]
      rfl
    · intro x hx
      simp only [List.mem_cons, List.not_mem_nil, or_false] at hx
      rcases hx with h | h | h | h <;> subst h <;> omega
  · -- four or more digits: contradicts hle
    rw [hshape] at hle
    simp at hle

theorem mod_sub_roundtrip (x kf : Nat) (hx : x < 830583) (hkf : kf < 830583) :
    ((x + kf) % 830583 + 830583 - kf) % 830583 = x := by
  omega

theorem lengthPrefixEncode_ok_shape (L key rk rf : Nat) (out : List Nat)
    (hok : (lengthPrefixEncode L key rk rf false).1 = .ok out) :
    (verifyDigits L key rk rf).length = 3 ∧
    out = prefixBytes L key rk rf ++ shuffle_bytes (verifyDigits L key rk rf) key := by
  unfold lengthPrefixEncode at hok
  by_cases h0 : L = 0
  · rw [if_pos h0] at hok; exact Except.noConfusion hok
  rw [if_neg h0] at hok
  by_cases h1 : HEADER_MSS_MOD ≤ L % 4294967296
  · rw [if_pos h1] at hok; exact Except.noConfusion hok
  rw [if_neg h1] at hok
  by_cases h2 : (lengthDigits L key).length = 0 ∨ 4 ≤ (lengthDigits L key).length
  · rw [if_pos h2] at hok; exact Except.noConfusion hok
  rw [if_neg h2, if_neg Bool.false_ne_true] at hok
  by_cases h3 : (verifyDigits L key rk rf).length ≠ 3
  · rw [if_pos h3] at hok; exact Except.noConfusion hok
  rw [if_neg h3] at hok
  push_neg at h3
  exact ⟨h3, (Except.ok.inj hok).symm⟩

theorem lengthPrefix_roundtrip (L key rk rf : Nat) (out rest : List Nat)
    (hL1 : 1 ≤ L) (hL2 : L < 262144)
    (hok : (lengthPrefixEncode L key rk rf false).1 = .ok out) :
    out.length = 7 ∧ lengthPrefixDecode (out ++ rest) key false = (.ok (L, 7), true) := by
  obtain ⟨hv3, hout⟩ := lengthPrefixEncode_ok_shape L key rk rf out hok
  obtain ⟨hplen, hpdec, hpprint⟩ := prefixBytes_spec L key rk rf
  have hLmod : L % 4294967296 = L := Nat.mod_eq_of_lt (by omega)
  have hkfM : key % HEADER_MSS_MOD < 830583 := by
    rw [hM_eq]; exact Nat.mod_lt key (by norm_num)
  have hdigits : lengthDigits L key
      = base94_decimal_encode ((L + key % HEADER_MSS_MOD) % HEADER_MSS_MOD) :=
    lengthDigits_eq L key (by omega)
  have hnM : (L + key % HEADER_MSS_MOD) % HEADER_MSS_MOD < 830583 := by
    rw [hM_eq]; exact Nat.mod_lt _ (by norm_num)
  have hdl3 : (lengthDigits L key).length ≤ 3 := lengthDigits_le L key
  have hshuf_len : (shuffle_bytes (verifyDigits L key rk rf) key).length = 3 := by
    rw [length_shuffle_bytes, hv3]
  have houtlen : out.length = 7 := by
    rw [hout, List.length_append, hplen, hshuf_len]
  refine ⟨houtlen, ?_⟩
  have htake4 : (out ++ rest).take 4 = prefixBytes L key rk rf := by
    rw [hout, List.append_assoc]
    exact List.take_left' hplen
  have hdrop4 : (out ++ rest).drop 4
      = shuffle_bytes (verifyDigits L key rk rf) key ++ rest := by
    rw [hout, List.append_assoc]
    exact List.drop_left' hplen
  have hextra : ((out ++ rest).drop 4).take 3
      = shuffle_bytes (verifyDigits L key rk rf) key := by
    rw [hdrop4]
    exact List.take_left' hshuf_len
  -- the padded length digits decode to the biased value
  have hpaddec : base94_decimal_decode
      (List.replicate (3 - (lengthDigits L key).length) 0x20 ++ lengthDigits L key)
      = .ok ((L + key % HEADER_MSS_MOD) % HEADER_MSS_MOD) := by
    rw [hdigits]
    refine decimal_decode_padded _ _ (by omega) ?_
    rw [← hdigits]
    omega
  -- the shuffled verification digits decode to the biased verify value
  have hverdec : base94_decimal_decode
      (unshuffle_bytes (shuffle_bytes (verifyDigits L key rk rf) key) key)
      = .ok (((inet_checksum (prefixBytes L key rk rf) ^^^ L)
        + key % HEADER_MSS_MOD) % HEADER_MSS_MOD) := by
    rw [unshuffle_shuffle]
    unfold verifyDigits
    rw [hLmod]
    have h30 : (3 : Nat) - 3 = 0 := rfl
    have := decimal_decode_padded
      (((inet_checksum (prefixBytes L key rk rf) ^^^ L)
        + key % HEADER_MSS_MOD) % HEADER_MSS_MOD) 0 (by rw [hM_eq] at *; omega) ?_
    · simpa using this
    · unfold verifyDigits at hv3
      rw [hLmod] at hv3
      omega
  have hcsle : inet_checksum (prefixBytes L key rk rf) ≤ 65535 := inet_checksum_le _
  have hxorM : inet_checksum (prefixBytes L key rk rf) ^^^ L < 830583 := by
    have : inet_checksum (prefixBytes L key rk rf) ^^^ L < 2 ^ 18 :=
      Nat.xor_lt_two_pow (by omega) (by omega)
    omega
  have hlenrt : ((L + key % HEADER_MSS_MOD) % HEADER_MSS_MOD
      + HEADER_MSS_MOD - key % HEADER_MSS_MOD) % HEADER_MSS_MOD = L := by
    rw [hM_eq] at *
    exact mod_sub_roundtrip L _ (by omega) hkfM
  have hverrt : ((((inet_checksum (prefixBytes L key rk rf) ^^^ L)
      + key % HEADER_MSS_MOD) % HEADER_MSS_MOD)
      + HEADER_MSS_MOD - key % HEADER_MSS_MOD) % HEADER_MSS_MOD
      = inet_checksum (prefixBytes L key rk rf) ^^^ L := by
    rw [hM_eq] at *
    exact mod_sub_roundtrip _ _ hxorM hkfM
  -- now walk the decoder
  simp only [lengthPrefixDecode, Bool.false_eq_true, if_false]
  rw [if_neg (show ¬((out ++ rest).length < 7) by
    rw [List.length_append, houtlen]; omega)]
  rw [htake4, hpdec]
  have hdroptake : ((0x20 :: (List.replicate (3 - (lengthDigits L key).length) 0x20
      ++ lengthDigits L key)).drop 1).take 3
      = List.replicate (3 - (lengthDigits L key).length) 0x20 ++ lengthDigits L key := by
    rw [List.drop_succ_cons, List.drop_zero]
    apply List.take_of_length_le
    rw [List.length_append, List.length_replicate]
    omega
  rw [hdroptake, hpaddec]
  split
  · rename_i heq
    exact Except.noConfusion heq
  · rename_i raw heq
    have hraw := Except.ok.inj heq
    subst hraw
    rw [hlenrt, if_neg (by omega)]
    rw [hextra, hverdec]
    split
    · rename_i heq2
      exact Except.noConfusion heq2
    · rename_i raw2 heq2
      have hraw2 := Except.ok.inj heq2
      subst hraw2
      rw [hverrt, if_neg (by omega)]

/-! ## Frame codec roundtrip -/

theorem frame_roundtrip (data : List Nat) (key rh rk rf : Nat) (out : List Nat) (so : Bool)
    (hbytes : ∀ b ∈ data, b < 256) (hlen1 : 1 ≤ data.length) (hlen2 : data.length ≤ 65536)
    (hok : CtcpTx.encode data key rh rk rf false = (.ok out, so)) :
    CtcpRx.decode out key false = (.ok data, true) := by
  -- expose the encoder body, then name the intermediates
  simp only [CtcpTx.encode] at hok
  rw [if_neg (by
    intro h
    rw [List.isEmpty_iff] at h
    rw [h] at hlen1
    simp at hlen1)] at hok
  rw [if_neg (by omega)] at hok
  have hkb : mask_key key < 256 := Nat.mod_lt key (by norm_num)
  set key_byte := mask_key key with hkey_byte
  set h0 := random_range rh 0x01 0xff with hh0
  set lm1 := data.length - 1 with hlm1
  set fkf := key ^^^ h0 with hfkf
  set fkb := mask_key fkf with hfkb
  have hfkb256 : fkb < 256 := Nat.mod_lt fkf (by norm_num)
  set htail := shuffle_bytes (mask_bytes [lm1 / 256, lm1 % 256] fkb) fkf with hhtail
  set header := delta_encode_in_place (h0 :: htail) key_byte with hheader
  set working := delta_encode_in_place
    (shuffle_bytes (mask_bytes data fkb) fkf) key_byte with hworking
  set packet := header ++ working with hpacket
  set payload := base94_encode_into packet key_byte with hpayload
  -- lengths
  have hhtail_len : htail.length = 2 := by
    rw [hhtail, length_shuffle_bytes, length_mask_bytes]
    rfl
  have hheader_len : header.length = 3 := by
    rw [hheader, length_delta_encode]
    simp [hhtail_len]
  have hworking_len : working.length = data.length := by
    rw [hworking, length_delta_encode, length_shuffle_bytes, length_mask_bytes]
  have hpacket_len : packet.length = 3 + data.length := by
    rw [hpacket, List.length_append, hheader_len, hworking_len]
  have hpacket_bytes : ∀ b ∈ packet, b < 256 := by
    intro b hb
    rcases List.mem_append.mp hb with h | h
    · exact mem_delta_encode_lt _ _ b h
    · exact mem_delta_encode_lt _ _ b h
  have hL1 : 1 ≤ payload.length := by
    have := length_base94_ge packet key_byte
    rw [hpayload]
    omega
  have hL2 : payload.length < 262144 := by
    have := length_base94_le packet key_byte
    rw [hpayload]
    omega
  -- extract the prefix from the encoder hypothesis
  have hbp : base94_encode_into (CtcpTx.buildPacket data key rh) (mask_key key)
      = payload := rfl
  rw [hbp] at hok
  rcases hsplit : lengthPrefixEncode payload.length key rk rf false with ⟨res, so2⟩
  rw [hsplit] at hok
  cases res with
  | error e => simp at hok
  | ok pfx =>
    simp only [Prod.mk.injEq, Except.ok.injEq] at hok
    obtain ⟨hout, hso⟩ := hok
    have hpref_ok : (lengthPrefixEncode payload.length key rk rf false).1 = .ok pfx := by
      rw [hsplit]
    obtain ⟨hpfx_len, hpdecode⟩ :=
      lengthPrefix_roundtrip payload.length key rk rf pfx payload hL1 hL2 hpref_ok
    -- decoder walk
    have happlen : (pfx ++ payload).length = 7 + payload.length := by
      rw [List.length_append, hpfx_len]
    rw [CtcpRx.decode, ← hout]
    rw [if_neg (by
      intro h
      rw [List.isEmpty_iff] at h
      rw [h] at happlen
      simp only [List.length_nil] at happlen
      omega)]
    rw [hpdecode]
    split
    · rename_i heq
      simp at heq
    · rename_i palen plen so3 heq
      simp only [Prod.mk.injEq, Except.ok.injEq] at heq
      obtain ⟨⟨hpalen, hplen⟩, hso3⟩ := heq
      subst hpalen
      subst hplen
      subst hso3
      rw [if_neg (by omega), if_neg (by omega)]
      have hpayload_ascii : ((pfx ++ payload).drop 7).take payload.length = payload := by
        rw [List.drop_left' hpfx_len]
        exact List.take_of_length_le (Nat.le_refl _)
      rw [hpayload_ascii]
      have hb94 : base94_decode_into (mask_key key) payload = .ok packet := by
        rw [hpayload, ← hkey_byte]
        exact base94_roundtrip packet key_byte hpacket_bytes
      rw [hb94]
      split
      · rename_i heq2
        exact Except.noConfusion heq2
      · rename_i w heq2
        have hw : packet = w := Except.ok.inj heq2
        subst hw
        simp only [CtcpRx.decodeBody]
        rw [if_neg (by omega)]
        rw [← hkey_byte]
        have htake3 : packet.take 3 = header := by
          rw [hpacket]
          exact List.take_left' hheader_len
        have hdrop3 : packet.drop 3 = working := by
          rw [hpacket]
          exact List.drop_left' hheader_len
        rw [htake3, hdrop3]
        have hhdec : delta_decode_in_place header key_byte = h0 :: htail := by
          rw [hheader]
          apply deltaDec_deltaEnc
          intro b hb
          rcases List.mem_cons.mp hb with h | h
          · subst h
            have := random_range_bounds rh 0x01 0xff (by norm_num) (by norm_num)
            rw [← hh0] at this
            omega
          · have hmem : b ∈ mask_bytes [lm1 / 256, lm1 % 256] fkb := by
              rw [hhtail] at h
              exact mem_of_mem_shuffle _ fkf b h
            refine mem_mask_lt _ fkb hfkb256 ?_ b hmem
            intro x hx
            simp only [List.mem_cons, List.not_mem_nil, or_false] at hx
            rcases hx with h2 | h2 <;> subst h2 <;> omega
        rw [hhdec]
        simp only [List.getD_cons_zero, List.drop_succ_cons, List.drop_zero]
        rw [← hfkf, ← hfkb]
        have hun1 : mask_bytes (unshuffle_bytes htail fkf) fkb
            = [lm1 / 256, lm1 % 256] := by
          rw [hhtail, unshuffle_shuffle, mask_mask]
        rw [hun1]
        have hbody : mask_bytes (unshuffle_bytes
            (delta_decode_in_place working key_byte) fkf) fkb = data := by
          rw [hworking]
          rw [deltaDec_deltaEnc _ _ (by
            intro b hb
            exact mem_mask_lt _ fkb hfkb256 hbytes b (mem_of_mem_shuffle _ fkf b hb))]
          rw [unshuffle_shuffle, mask_mask]
        rw [hbody]
        have hor : lm1 / 256 * 256 ||| lm1 % 256 = lm1 := by
          have h28 : (256 : Nat) = 2 ^ 8 := by norm_num
          have hlt : lm1 % 2 ^ 8 < 2 ^ 8 := Nat.mod_lt lm1 (by norm_num)
          rw [Nat.mul_comm (lm1 / 256) 256, h28, ← Nat.mul_add_lt_is_or hlt (lm1 / 2 ^ 8)]
          exact Nat.div_add_mod lm1 (2 ^ 8)
        simp only [List.getD_cons_zero, List.getD_cons_succ]
        rw [if_neg (by omega)]

/-! ## Short-mode and error-path lemmas -/

theorem lengthPrefixEncode_short_ok (L key rk rf : Nat) (h1 : 1 ≤ L) (h2 : L < 830583) :
    lengthPrefixEncode L key rk rf true = (.ok (prefixBytes L key rk rf), true) := by
  have hmle := Nat.mod_le L 4294967296
  have ha := lengthDigits_pos L key
  have hb := lengthDigits_le L key
  unfold lengthPrefixEncode
  rw [if_neg (by omega), if_neg (by rw [hM_eq]; omega),
    if_neg (by intro h; rcases h with h | h <;> omega), if_pos rfl]

theorem lengthPrefixEncode_fresh_error (L key rk rf : Nat) (e : CtcpError) (so2 : Bool)
    (h1 : 1 ≤ L) (h2 : L < 830583)
    (h : lengthPrefixEncode L key rk rf false = (.error e, so2)) :
    e = .invalidData "CTCP verify length illegal" ∧ so2 = false := by
  have hmle := Nat.mod_le L 4294967296
  have ha := lengthDigits_pos L key
  have hb := lengthDigits_le L key
  unfold lengthPrefixEncode at h
  rw [if_neg (by omega), if_neg (by rw [hM_eq]; omega),
    if_neg (by intro hx; rcases hx with hx | hx <;> omega),
    if_neg Bool.false_ne_true] at h
  by_cases h3 : (verifyDigits L key rk rf).length ≠ 3
  · rw [if_pos h3] at h
    simp only [Prod.mk.injEq] at h
    exact ⟨(Except.error.inj h.1).symm, h.2.symm⟩
  · rw [if_neg h3] at h
    simp at h

theorem lengthPrefixEncode_flag_cases (L key rk rf : Nat) (so : Bool) :
    (lengthPrefixEncode L key rk rf so).2 = so
    ∨ (lengthPrefixEncode L key rk rf so).1.isOk = true := by
  unfold lengthPrefixEncode
  split_ifs <;> first | (left; rfl) | (right; rfl)

theorem lengthPrefixDecode_flag_cases (data : List Nat) (key : Nat) (so : Bool) :
    (lengthPrefixDecode data key so).2 = so
    ∨ (lengthPrefixDecode data key so).1.isOk = true := by
  cases so
  · simp only [lengthPrefixDecode, Bool.false_eq_true, if_false]
    repeat' split
    all_goals first | (left; rfl) | (right; rfl)
  · left
    simp only [lengthPrefixDecode]
    repeat' split
    all_goals rfl

theorem length_buildPacket (data : List Nat) (key rh : Nat) :
    (CtcpTx.buildPacket data key rh).length = 3 + data.length := by
  simp only [CtcpTx.buildPacket]
  rw [List.length_append, length_delta_encode, length_delta_encode, List.length_cons,
    length_shuffle_bytes, length_mask_bytes, length_shuffle_bytes, length_mask_bytes]
  simp

theorem mem_verifyDigits (L key rk rf : Nat) :
    ∀ b ∈ verifyDigits L key rk rf, 0x20 ≤ b ∧ b ≤ 0x7d := by
  unfold verifyDigits
  exact mem_decimal_encode _

theorem lengthPrefixEncode_ok_printable (L key rk rf : Nat) (so : Bool) (pfx : List Nat)
    (hok : (lengthPrefixEncode L key rk rf so).1 = .ok pfx) :
    ∀ b ∈ pfx, 0x20 ≤ b ∧ b ≤ 0x7e := by
  obtain ⟨hplen, hpdec, hpprint⟩ := prefixBytes_spec L key rk rf
  unfold lengthPrefixEncode at hok
  by_cases h0 : L = 0
  · rw [if_pos h0] at hok; exact Except.noConfusion hok
  rw [if_neg h0] at hok
  by_cases h1 : HEADER_MSS_MOD ≤ L % 4294967296
  · rw [if_pos h1] at hok; exact Except.noConfusion hok
  rw [if_neg h1] at hok
  by_cases h2 : (lengthDigits L key).length = 0 ∨ 4 ≤ (lengthDigits L key).length
  · rw [if_pos h2] at hok; exact Except.noConfusion hok
  rw [if_neg h2] at hok
  by_cases hso : so = true
  · rw [if_pos hso] at hok
    rw [← Except.ok.inj hok]
    exact hpprint
  · rw [if_neg hso] at hok
    by_cases h3 : (verifyDigits L key rk rf).length ≠ 3
    · rw [if_pos h3] at hok; exact Except.noConfusion hok
    · rw [if_neg h3] at hok
      rw [← Except.ok.inj hok]
      intro b hb
      rcases List.mem_append.mp hb with h | h
      · exact hpprint b h
      · have := mem_verifyDigits L key rk rf b (mem_of_mem_shuffle _ key b h)
        omega

theorem CtcpTx_encode_short_ok (data : List Nat) (key rh rk rf : Nat)
    (h1 : 1 ≤ data.length) (h2 : data.length ≤ 65536) :
    CtcpTx.encode data key rh rk rf true
      = (.ok (prefixBytes
          (base94_encode_into (CtcpTx.buildPacket data key rh) (mask_key key)).length
          key rk rf
        ++ base94_encode_into (CtcpTx.buildPacket data key rh) (mask_key key)), true) := by
  have hge := length_base94_ge (CtcpTx.buildPacket data key rh) (mask_key key)
  have hle := length_base94_le (CtcpTx.buildPacket data key rh) (mask_key key)
  have hbl := length_buildPacket data key rh
  unfold CtcpTx.encode
  rw [if_neg (by
    intro h
    rw [List.isEmpty_iff] at h
    rw [h] at h1
    simp at h1)]
  rw [if_neg (by omega)]
  rw [lengthPrefixEncode_short_ok _ key rk rf (by omega) (by omega)]

theorem verifyDigits_128_default (rk rf : Nat) :
    (verifyDigits 128 DEFAULT_KEY rk rf).length = 3 := by
  have hcs := inet_checksum_le (prefixBytes 128 DEFAULT_KEY rk rf)
  have hxor : inet_checksum (prefixBytes 128 DEFAULT_KEY rk rf) ^^^ (128 % 4294967296)
      < 2 ^ 17 := by
    apply Nat.xor_lt_two_pow (n := 17) <;> omega
  have hkf : DEFAULT_KEY % HEADER_MSS_MOD = 55489 := by decide
  unfold verifyDigits
  rw [hkf]
  apply decimal_encode_length_three
  · rw [hM_eq, Nat.mod_eq_of_lt (by omega)]
    omega
  · rw [hM_eq]
    have := Nat.mod_lt ((inet_checksum (prefixBytes 128 DEFAULT_KEY rk rf)
      ^^^ (128 % 4294967296)) + 55489) (show 0 < 830583 by norm_num)
    omega

/-! ## Spec-side definitions for the shuffle formula (claim C3) -/

/-- Modelled from the claim's words: for `i = 0, …, len−1` in order swap
`data[i]` with `data[j]` where `j = (i XOR K) mod len`, a true modulo in
32-bit arithmetic with `len` as `u32`. -/
def shuffle_bytes_claimed (data : List Nat) (key : Nat) : List Nat :=
  if data.length ≤ 1 then data
  else (List.range data.length).foldl
    (fun acc i => swapIdx acc i
      (((i ^^^ key) % 4294967296) % (data.length % 4294967296))) data

/-- The partner formula the code actually computes: the Lemire multiply-shift
reduction `((i XOR K) as u32 * len as u32) >> 32`, written out. -/
def shuffle_bytes_spec (data : List Nat) (key : Nat) : List Nat :=
  if data.length ≤ 1 then data
  else (List.range data.length).foldl
    (fun acc i => swapIdx acc i
      ((((i ^^^ key) % 4294967296) * (data.length % 4294967296)) / 4294967296)) data

/-! ## Flag-coding lemmas for claim C5 -/

theorem decode_kf_even (a b c d : Nat) (h : a % 2 = 0) :
    base94_decode_kf [a, b, c, d] = [0x20, 0x20, d, c] := by
  unfold base94_decode_kf
  rw [if_pos (by simp)]
  rw [show ([a, b, c, d].getD 0 0) = a from rfl, if_pos h]
  rfl

theorem decode_kf_odd (a b c d : Nat) (h : ¬a % 2 = 0) :
    base94_decode_kf [a, b, c, d] = [0x20, b, d, c] := by
  unfold base94_decode_kf
  rw [if_pos (by simp)]
  rw [show ([a, b, c, d].getD 0 0) = a from rfl, if_neg h]
  rfl

theorem decode_kf_getD1 (q : List Nat) (hq : q.length = 4) :
    (base94_decode_kf q).getD 1 0 = if q.getD 0 0 % 2 = 0 then 0x20 else q.getD 1 0 := by
  rcases q with _ | ⟨a, q⟩
  · simp at hq
  rcases q with _ | ⟨b, q⟩
  · simp at hq
  rcases q with _ | ⟨c, q⟩
  · simp at hq
  rcases q with _ | ⟨d, q⟩
  · simp at hq
  rcases q with _ | ⟨e, q⟩
  · by_cases h : a % 2 = 0
    · rw [decode_kf_even a b c d h]
      simp [h]
    · rw [decode_kf_odd a b c d h]
      simp [h]
  · simp at hq

theorem lengthPrefixEncode_ok_take4 (L key rk rf : Nat) (so : Bool) (p : List Nat)
    (so2 : Bool) (hok : lengthPrefixEncode L key rk rf so = (.ok p, so2)) :
    p.take 4 = prefixBytes L key rk rf
    ∧ p.getD 0 0 = (prefixBytes L key rk rf).getD 0 0
    ∧ p.getD 1 0 = (prefixBytes L key rk rf).getD 1 0 := by
  obtain ⟨hplen, hpdec, hpprint⟩ := prefixBytes_spec L key rk rf
  unfold lengthPrefixEncode at hok
  by_cases h0 : L = 0
  · rw [if_pos h0] at hok; simp at hok
  rw [if_neg h0] at hok
  by_cases h1 : HEADER_MSS_MOD ≤ L % 4294967296
  · rw [if_pos h1] at hok; simp at hok
  rw [if_neg h1] at hok
  by_cases h2 : (lengthDigits L key).length = 0 ∨ 4 ≤ (lengthDigits L key).length
  · rw [if_pos h2] at hok; simp at hok
  rw [if_neg h2] at hok
  by_cases hso : so = true
  · rw [if_pos hso] at hok
    simp only [Prod.mk.injEq, Except.ok.injEq] at hok
    rw [← hok.1]
    exact ⟨List.take_of_length_le (by omega), rfl, rfl⟩
  · rw [if_neg hso] at hok
    by_cases h3 : (verifyDigits L key rk rf).length ≠ 3
    · rw [if_pos h3] at hok; simp at hok
    · rw [if_neg h3] at hok
      simp only [Prod.mk.injEq, Except.ok.injEq] at hok
      rw [← hok.1]
      exact ⟨List.take_left' hplen,
        List.getD_append _ _ _ _ (by omega), List.getD_append _ _ _ _ (by omega)⟩

/-! ## Claims -/

/-- C3 (counterexample): on the two-byte slice `[10, 20]` with key 1,
`shuffle_bytes` (which uses the multiply-shift reduction `fast_mod_u32`)
swaps the bytes, while the claimed formula `j = (i XOR K) mod len` leaves
them in place, so the claim's description of the swap partner is false. -/
theorem claim3_counterexample :
    shuffle_bytes [10, 20] 1 = [20, 10]
    ∧ shuffle_bytes_claimed [10, 20] 1 = [10, 20]
    ∧ shuffle_bytes [10, 20] 1 ≠ shuffle_bytes_claimed [10, 20] 1 := by
  decide

/-- C3 (amended): `shuffle_bytes` swaps `data[i]` with `data[j]` for
`i = 0, 1, …, len−1` in ascending order where
`j = ((i XOR K) as u32 * (len as u32)) >> 32` — the `fast_mod_u32`
multiply-shift reduction, not a true modulo — and slices of length 0 or 1
are left unchanged. -/
theorem claim3_shuffle_formula (data : List Nat) (key : Nat) :
    shuffle_bytes data key = shuffle_bytes_spec data key
    ∧ (data.length ≤ 1 → shuffle_bytes data key = data) := by
  constructor
  · unfold shuffle_bytes shuffle_bytes_spec applySwaps shuffleSwaps
    split
    · rfl
    · rw [List.foldl_map]
      rfl
  · intro h
    unfold shuffle_bytes
    rw [if_pos h]

/-- C3 (witness): the amended formula evaluated on a concrete slice. -/
theorem claim3_witness : shuffle_bytes [10, 20] 1 = shuffle_bytes_spec [10, 20] 1 :=
  (claim3_shuffle_formula [10, 20] 1).1

/-- C6: for every byte slice `X` and every key `K`,
`unshuffle_bytes (shuffle_bytes X K) K = X`: the descending-order swap loop
exactly inverts the ascending-order shuffle with the same key and length. -/
theorem claim6_unshuffle_shuffle (X : List Nat) (K : Nat) :
    unshuffle_bytes (shuffle_bytes X K) K = X :=
  unshuffle_shuffle X K

/-- C7 (counterexample): the header nonce can never be `0xff`: for no rng
draw does `random_range rng 0x01 0xff` return `0xff`, because the value is
reduced to the half-open span `[0, 0xff - 0x01)`. -/
theorem claim7_counterexample : ¬∃ v : Nat, random_range v 0x01 0xff = 0xff := by
  rintro ⟨v, hv⟩
  have := random_range_bounds v 0x01 0xff (by norm_num) (by norm_num)
  omega

/-- C7 (amended): the header nonce byte `h[0] = random_range(rng, 0x01, 0xff)`
lies in `[0x01, 0xfe]` for every rng draw, and every value in that inclusive
range (but not `0xff`) is produced for some draw. -/
theorem claim7_nonce_range :
    (∀ v : Nat, 1 ≤ random_range v 0x01 0xff ∧ random_range v 0x01 0xff ≤ 0xfe)
    ∧ (∀ t : Nat, 1 ≤ t → t ≤ 0xfe →
      random_range (((t - 1) * 4294967296 + 253) / 254) 0x01 0xff = t) := by
  constructor
  · intro v
    have := random_range_bounds v 0x01 0xff (by norm_num) (by norm_num)
    omega
  · intro t h1 h2
    set a := t - 1 with ha
    set v := (a * 4294967296 + 253) / 254 with hv
    have ha253 : a ≤ 253 := by omega
    have hv1 : 254 * v ≤ a * 4294967296 + 253 := by omega
    have hv2 : a * 4294967296 ≤ 254 * v := by omega
    have hv3 : v < 4294967296 := by omega
    have hfm : (v % 4294967296) * 254 / 4294967296 = a := by
      rw [Nat.mod_eq_of_lt hv3]
      apply Nat.div_eq_of_lt_le
      · calc a * 4294967296 ≤ 254 * v := hv2
          _ = v * 254 := Nat.mul_comm _ _
      · calc v * 254 = 254 * v := Nat.mul_comm _ _
          _ ≤ a * 4294967296 + 253 := hv1
          _ < (a + 1) * 4294967296 := by omega
    unfold random_range fast_mod_u32
    rw [show ((0xff - 0x01) % 256 % 4294967296 : Nat) = 254 from rfl, hfm]
    omega

/-- C7 (witness): the top attainable nonce value `0xfe` is produced. -/
theorem claim7_witness :
    random_range (((254 - 1) * 4294967296 + 253) / 254) 0x01 0xff = 254 :=
  claim7_nonce_range.2 254 (by norm_num) (by norm_num)

/-- C9: the required checksum test vector:
`inet_checksum [0x3e, 0x2f, 0x28, 0x51] = 0x997f`, where `inet_checksum` is
the bitwise NOT of the one's-complement big-endian 16-bit folded sum. -/
theorem claim9_inet_checksum_vector :
    inet_checksum [0x3e, 0x2f, 0x28, 0x51] = 0x997f := by
  decide

/-- C1 (counterexample): the unconditional round-trip over every key fails
because the encoder itself can fail: on the one-byte frame `[0x00]` with key
56 and these rng draws, `CtcpTx::encode` in a fresh direction returns the
`InvalidData` error of the verification-digit check instead of a frame. -/
theorem claim1_counterexample :
    CtcpTx.encode [0x00] 56 118365241 4249276155 0 false
      = (.error (.invalidData "CTCP verify length illegal"), false) := rfl

/-- C1 (amended): for every frame `D` with `1 ≤ |D| ≤ 65536` bytes and every
32-bit key `K`, whenever a fresh `CtcpTx` encode of `D` succeeds (it can fail
only via the verification-digit check), a fresh `CtcpRx` sharing key `K`
decodes the result back to exactly `D`, for every choice the encoder's random
source makes (header nonce, prefix byte `k` and pad digit draws). -/
theorem claim1_roundtrip (data : List Nat) (key rh rk rf : Nat) (out : List Nat)
    (so : Bool) (hbytes : ∀ b ∈ data, b < 256) (hlen1 : 1 ≤ data.length)
    (hlen2 : data.length ≤ 65536)
    (hok : CtcpTx.encode data key rh rk rf false = (.ok out, so)) :
    CtcpRx.decode out key false = (.ok data, true) :=
  frame_roundtrip data key rh rk rf out so hbytes hlen1 hlen2 hok

/-- C1 (witness): a concrete frame encoded with the default key round-trips. -/
theorem claim1_witness :
    CtcpRx.decode [33, 38, 68, 58, 63, 42, 103, 125, 86, 126, 100, 126, 47, 41]
      DEFAULT_KEY false = (.ok [0x41], true) :=
  claim1_roundtrip [0x41] DEFAULT_KEY 0 0 0
    [33, 38, 68, 58, 63, 42, 103, 125, 86, 126, 100, 126, 47, 41] true
    (by decide) (by decide) (by decide) rfl

/-- C2 (counterexample): the first (long) length prefix emitted for a 128-byte
payload has 7 bytes, not 6: the source emits all 4 flagged header bytes plus
the 3-byte verification tail. -/
theorem claim2_counterexample :
    (lengthPrefixEncode 128 DEFAULT_KEY 0 0 false).1
      = .ok [33, 38, 95, 59, 79, 41, 122]
    ∧ ([33, 38, 95, 59, 79, 41, 122] : List Nat).length ≠ 6 :=
  ⟨rfl, by decide⟩

/-- C2 (amended): starting from `short_only = false`, three consecutive
length-prefix encodes for a 128-byte payload produce prefixes of 7, 4 and 4
bytes (one long prefix, then short prefixes), for every choice of the rng
draws, and the `short_only` flag is true after the first encode. -/
theorem claim2_prefix_lengths (rk1 rf1 rk2 rf2 rk3 rf3 : Nat) :
    ∃ p1 p2 p3 : List Nat,
      lengthPrefixEncode 128 DEFAULT_KEY rk1 rf1 false = (.ok p1, true) ∧ p1.length = 7
      ∧ lengthPrefixEncode 128 DEFAULT_KEY rk2 rf2 true = (.ok p2, true) ∧ p2.length = 4
      ∧ lengthPrefixEncode 128 DEFAULT_KEY rk3 rf3 true = (.ok p3, true)
      ∧ p3.length = 4 := by
  refine ⟨prefixBytes 128 DEFAULT_KEY rk1 rf1
      ++ shuffle_bytes (verifyDigits 128 DEFAULT_KEY rk1 rf1) DEFAULT_KEY,
    prefixBytes 128 DEFAULT_KEY rk2 rf2, prefixBytes 128 DEFAULT_KEY rk3 rf3,
    ?_, ?_, ?_, ?_, ?_, ?_⟩
  · unfold lengthPrefixEncode
    rw [if_neg (by decide), if_neg (by decide), if_neg (by decide),
      if_neg Bool.false_ne_true,
      if_neg (not_ne_iff.mpr (verifyDigits_128_default rk1 rf1))]
  · rw [List.length_append, (prefixBytes_spec 128 DEFAULT_KEY rk1 rf1).1,
      length_shuffle_bytes, verifyDigits_128_default]
  · exact lengthPrefixEncode_short_ok 128 DEFAULT_KEY rk2 rf2 (by norm_num) (by norm_num)
  · exact (prefixBytes_spec 128 DEFAULT_KEY rk2 rf2).1
  · exact lengthPrefixEncode_short_ok 128 DEFAULT_KEY rk3 rf3 (by norm_num) (by norm_num)
  · exact (prefixBytes_spec 128 DEFAULT_KEY rk3 rf3).1

/-- C4: every byte of every frame `CtcpTx::encode` produces — length prefix,
verification tail, printable header and base-94 body alike — lies in the
inclusive range `[0x20, 0x7e]`, for every input, key, rng outcome and both
`short_only` states. -/
theorem claim4_encode_printable (data : List Nat) (key rh rk rf : Nat) (so : Bool)
    (out : List Nat) (so2 : Bool)
    (hok : CtcpTx.encode data key rh rk rf so = (.ok out, so2)) :
    ∀ b ∈ out, 0x20 ≤ b ∧ b ≤ 0x7e := by
  unfold CtcpTx.encode at hok
  by_cases hemp : data.isEmpty = true
  · rw [if_pos hemp] at hok
    simp only [Prod.mk.injEq, Except.ok.injEq] at hok
    rw [← hok.1]
    intro b hb
    cases hb
  · rw [if_neg hemp] at hok
    by_cases hsize : 65536 < data.length
    · rw [if_pos hsize] at hok
      simp at hok
    · rw [if_neg hsize] at hok
      rcases hsplit : lengthPrefixEncode
        (base94_encode_into (CtcpTx.buildPacket data key rh) (mask_key key)).length
        key rk rf so with ⟨res, so3⟩
      rw [hsplit] at hok
      cases res with
      | error e => simp at hok
      | ok pfx =>
        simp only [Prod.mk.injEq, Except.ok.injEq] at hok
        rw [← hok.1]
        intro b hb
        rcases List.mem_append.mp hb with h | h
        · exact lengthPrefixEncode_ok_printable _ key rk rf so pfx (by rw [hsplit]) b h
        · exact base94_printable _ _ b h

/-- C4 (witness): a byte of a concretely encoded frame is printable. -/
theorem claim4_witness : 0x20 ≤ 103 ∧ (103 : Nat) ≤ 0x7e :=
  claim4_encode_printable [0x41] DEFAULT_KEY 0 0 0 false
    [33, 38, 68, 58, 63, 42, 103, 125, 86, 126, 100, 126, 47, 41] true
    rfl 103 (by decide)

/-- C5 (counterexample): with payload length 1, key 0 and a draw making the
random byte `k` odd (`k0 = 0x21`), the zero-pad branch forces `k` to the even
byte `0x22` — its low bit becomes 0, not 1 as the claim states. -/
theorem claim5_counterexample :
    (lengthPrefixEncode 1 0 45691142 0 false).1
      = .ok [0x22, 0x20, 0x21, 0x20, 0x22, 0x25, 0x4c]
    ∧ (0x22 : Nat) % 2 = 0 :=
  ⟨rfl, by decide⟩

/-- C5 (amended): when the first base-94 digit of the encoded length is the
zero pad `0x20` (the biased length value is below `94²`), the length-prefix
encoder forces the low bit of the random byte `k` (prefix position 0) to 0
and replaces the padded digit `f` (position 1) with a fresh random printable
byte drawn from `rf`; the receiver's `base94_decode_kf` discards `f` exactly
when `k`'s low bit is 0. -/
theorem claim5_pad_flag (L key rk rf : Nat) (so : Bool) (p : List Nat) (so2 : Bool)
    (hn : (L % 4294967296 + key % HEADER_MSS_MOD) % HEADER_MSS_MOD < 8836)
    (hok : lengthPrefixEncode L key rk rf so = (.ok p, so2)) :
    p.getD 0 0 % 2 = 0 ∧ p.getD 1 0 = random_range rf 0x20 0x7e
    ∧ (base94_decode_kf (p.take 4)).getD 1 0 = 0x20
    ∧ (∀ q : List Nat, q.length = 4 →
      (base94_decode_kf q).getD 1 0 = if q.getD 0 0 % 2 = 0 then 0x20 else q.getD 1 0) := by
  obtain ⟨htake, hgd0, hgd1⟩ := lengthPrefixEncode_ok_take4 L key rk rf so p so2 hok
  have hpos := lengthDigits_pos L key
  have hk0 := random_range_bounds rk 0x20 0x7e (by norm_num) (by norm_num)
  have hkspec := prefixK1_spec (random_range rk 0x20 0x7e) 0x20 hk0.1 (by omega)
  have heven : prefixK1 (random_range rk 0x20 0x7e) 0x20 % 2 = 0 := hkspec.2.2.1 rfl
  rcases hshape : lengthDigits L key with _ | ⟨a, tl⟩
  · rw [hshape] at hpos; simp at hpos
  rcases tl with _ | ⟨b, tl2⟩
  · have hpb := prefixBytes_one L key rk rf a hshape
    refine ⟨?_, ?_, ?_, decode_kf_getD1⟩
    · rw [hgd0, hpb]
      exact heven
    · rw [hgd1, hpb, prefixF1_pad]
      rfl
    · rw [htake, hpb, decode_kf_even _ _ _ _ heven]
      rfl
  rcases tl2 with _ | ⟨c, tl3⟩
  · have hpb := prefixBytes_two L key rk rf a b hshape
    refine ⟨?_, ?_, ?_, decode_kf_getD1⟩
    · rw [hgd0, hpb]
      exact heven
    · rw [hgd1, hpb, prefixF1_pad]
      rfl
    · rw [htake, hpb, decode_kf_even _ _ _ _ heven]
      rfl
  · exfalso
    have h3 : (lengthDigits L key).length < 3 := by
      unfold lengthDigits
      exact decimal_encode_length_lt_three _ hn
    rw [hshape] at h3
    simp only [List.length_cons] at h3
    omega

/-- C5 (witness): the even-`k` conclusion evaluated at a concrete input. -/
theorem claim5_witness :
    ([0x22, 0x20, 0x21, 0x20, 0x22, 0x25, 0x4c] : List Nat).getD 0 0 % 2 = 0 :=
  (claim5_pad_flag 1 0 45691142 0 false
    [0x22, 0x20, 0x21, 0x20, 0x22, 0x25, 0x4c] true (by decide) rfl).1

/-- C8 (counterexample): "encodes exactly the inputs of 1 to 65536 bytes" fails:
with key 57 and these rng draws, a fresh-direction encode of the valid one-byte
frame `[0x00]` returns an error instead of a frame. -/
theorem claim8_counterexample :
    CtcpTx.encode [0x00] 57 4034297890 4281648159 0 false
      = (.error (.invalidData "CTCP verify length illegal"), false) := rfl

/-- C8 (amended): `CtcpTx::encode` returns an empty output without error for an
empty input frame and fails with an `InvalidData` error for every input frame
longer than 65536 bytes; for inputs of 1 to 65536 bytes it always succeeds in
short-prefix mode, while in fresh (long-prefix) mode the only possible failure
is the verification-digit length check, which leaves `short_only` false. -/
theorem claim8_encode_domain (data : List Nat) (key rh rk rf : Nat) (so : Bool) :
    (data = [] → CtcpTx.encode data key rh rk rf so = (.ok [], so))
    ∧ (65536 < data.length → CtcpTx.encode data key rh rk rf so
        = (.error (.invalidData "CTCP frame payload too long"), so))
    ∧ (1 ≤ data.length → data.length ≤ 65536 →
        ∃ out : List Nat, CtcpTx.encode data key rh rk rf true = (.ok out, true))
    ∧ (∀ e : CtcpError, ∀ so2 : Bool, 1 ≤ data.length → data.length ≤ 65536 →
        CtcpTx.encode data key rh rk rf false = (.error e, so2) →
        e = .invalidData "CTCP verify length illegal" ∧ so2 = false) := by
  refine ⟨?_, ?_, ?_, ?_⟩
  · intro h
    subst h
    rfl
  · intro h
    unfold CtcpTx.encode
    rw [if_neg (by
        intro hemp
        rw [List.isEmpty_iff] at hemp
        rw [hemp] at h
        simp at h),
      if_pos h]
  · intro h1 h2
    exact ⟨_, CtcpTx_encode_short_ok data key rh rk rf h1 h2⟩
  · intro e so2 h1 h2 h
    have hge := length_base94_ge (CtcpTx.buildPacket data key rh) (mask_key key)
    have hle := length_base94_le (CtcpTx.buildPacket data key rh) (mask_key key)
    have hbl := length_buildPacket data key rh
    unfold CtcpTx.encode at h
    rw [if_neg (by
        intro hemp
        rw [List.isEmpty_iff] at hemp
        rw [hemp] at h1
        simp at h1),
      if_neg (by omega)] at h
    rcases hsplit : lengthPrefixEncode
        (base94_encode_into (CtcpTx.buildPacket data key rh) (mask_key key)).length
        key rk rf false with ⟨res, so3⟩
    rw [hsplit] at h
    cases res with
    | ok pfx => simp at h
    | error e0 =>
      simp only [Prod.mk.injEq, Except.error.injEq] at h
      rw [← h.1, ← h.2]
      exact lengthPrefixEncode_fresh_error _ key rk rf e0 so3 (by omega) (by omega) hsplit

/-- C8 (witness): the short-mode success clause at a concrete one-byte frame. -/
theorem claim8_witness :
    ∃ out : List Nat, CtcpTx.encode [0x41] DEFAULT_KEY 0 0 0 true = (.ok out, true) :=
  (claim8_encode_domain [0x41] DEFAULT_KEY 0 0 0 true).2.2.1 (by decide) (by decide)

/-- C10: whenever `encode_length_prefix` or `decode_length_prefix` returns an
error, the direction's `short_only` flag is returned unchanged — the flag flips
to true only on a successful long-prefix encode or decode. -/
theorem claim10_error_flag (data : List Nat) (L key rk rf : Nat) (so : Bool) :
    (∀ e : CtcpError, ∀ so2 : Bool,
      lengthPrefixEncode L key rk rf so = (.error e, so2) → so2 = so)
    ∧ (∀ e : CtcpError, ∀ so2 : Bool,
      lengthPrefixDecode data key so = (.error e, so2) → so2 = so) := by
  constructor
  · intro e so2 h
    rcases lengthPrefixEncode_flag_cases L key rk rf so with hf | hok
    · rw [h] at hf
      exact hf
    · rw [h] at hok
      exact Bool.noConfusion hok
  · intro e so2 h
    rcases lengthPrefixDecode_flag_cases data key so with hf | hok
    · rw [h] at hf
      exact hf
    · rw [h] at hok
      exact Bool.noConfusion hok

/-- C10 (witness): a fresh-mode decode of a 2-byte frame fails with a short
prefix and returns the flag unchanged. -/
theorem claim10_witness : (false : Bool) = false :=
  (claim10_error_flag [0x19, 0x7f] 1 0 0 0 false).2
    (.unexpectedEof "CTCP prefix too short") false rfl

end Ctcp
